import Mathlib

/-!
Verification of the `collier` miner/remediation CLI (src/main.rs) against its
natural-language specification.

The embedding models:
  * the SQLite store (`metadata`, `creators`, `holders` relations) as lists of
    rows, with `INSERT OR REPLACE` under the schema's uniqueness constraints
    modelled as filter-out-conflicts-then-append;
  * `mine_metadata` as a fold of per-account ingestion over the sequence of
    accounts returned by the filtered `getProgramAccounts` scan (decode failure
    aborts the pass via the `?` operator, modelled as `Option.none`);
  * `mine_holders` as a fold over the mints of the `metadata` relation, with a
    delete-then-insert of the holder row for every token account whose amount
    string equals "1";
  * the retry loop of `rescue_slatts` / `list_metadata_uris` (`tries` counter,
    `break` on success, give up once `tries > 5`);
  * the per-record remediation step of `rescue_slatts`: decode, unconditional
    `unwrap` of the creators option (a panic when `None`), the `len != 4`
    skip guard, and the corrected `Data` payload construction.
-/

set_option autoImplicit false

namespace Collier

/-! ## Data model (metaplex_token_metadata state, as used by src/main.rs) -/

/-- A royalty creator entry: `Creator { address, verified, share }`. -/
structure Creator where
  address : String
  verified : Bool
  share : Nat
deriving DecidableEq, Repr

/-- The `Data` payload of a metadata account. -/
structure Data where
  name : String
  symbol : String
  uri : String
  seller_fee_basis_points : Nat
  creators : Option (List Creator)
deriving DecidableEq, Repr

/-- A decoded `Metadata` account (the fields src/main.rs reads). -/
structure Metadata where
  update_authority : String
  mint : String
  data : Data
deriving DecidableEq, Repr

/-! ## Store rows

`metadata(metadata_address text primary key, mint_address text unique)` rows
are `(metadata_address, mint_address)` pairs;
`creators(creator_address, metadata_address, UNIQUE(creator_address, metadata_address))`
rows are `(creator_address, metadata_address)` pairs;
`holders(mint_address text primary key, holder_address text)` rows are
`(mint_address, holder_address)` pairs. -/

/-- Two `metadata` rows conflict when they share the primary key
`metadata_address` or the unique `mint_address`. -/
def metaConflict (x r : String × String) : Bool :=
  decide (x.1 = r.1) || decide (x.2 = r.2)

/-- Two `creators` rows conflict when they agree on the whole unique pair. -/
def creatorConflict (x r : String × String) : Bool :=
  decide (x.1 = r.1) && decide (x.2 = r.2)

/-- `INSERT OR REPLACE`: SQLite deletes every row conflicting with the new row
on some uniqueness constraint, then inserts the new row. -/
def upsertBy {α : Type} (conflict : α → α → Bool) (s : List α) (r : α) : List α :=
  s.filter (fun x => !conflict x r) ++ [r]

/-- The two tables touched by `mine_metadata`. -/
structure Store where
  metadata : List (String × String)
  creators : List (String × String)
deriving DecidableEq, Repr

section UpsertDefs

variable {α : Type} (conflict : α → α → Bool)

/-- Fold a sequence of upserts over an initial table state. -/
def upserts (s : List α) (L : List α) : List α :=
  L.foldl (upsertBy conflict) s

/-- A row survives the whole sequence of upserts iff it conflicts with none of
the inserted rows. -/
def noConf (L : List α) (x : α) : Bool :=
  L.all (fun r => !conflict x r)

/-- The inserted rows that survive to the end of the sequence: a row survives
iff no later inserted row conflicts with it. -/
def survivors : List α → List α
  | [] => []
  | r :: L => (if L.any (fun y => conflict r y) then [] else [r]) ++ survivors L

end UpsertDefs

/-! ## `mine_metadata` (src/main.rs lines 172-234)

The filtered scan returns a sequence of `(metadata_address, raw_account)`
pairs.  For each pair the code decodes the account with
`Metadata::deserialize(...)?` — a decode failure aborts the whole pass — and
then issues the two `INSERT OR REPLACE` statements. -/

/-- Ingest one scanned account: decode it and upsert the `metadata` row and
the `creators` link row.  `none` models the `?`-propagated decode failure. -/
def ingestAccount {β : Type} (creatorAddress : String) (dec : β → Option Metadata)
    (s : Store) (acc : String × β) : Option Store :=
  match dec acc.2 with
  | none => none
  | some md =>
      some { metadata := upsertBy metaConflict s.metadata (acc.1, md.mint),
             creators := upsertBy creatorConflict s.creators (creatorAddress, acc.1) }

/-- The whole `mine_metadata` pass over the fetched account sequence. -/
def mineMetadata {β : Type} (creatorAddress : String) (dec : β → Option Metadata)
    (accs : List (String × β)) (s : Store) : Option Store :=
  accs.foldlM (ingestAccount creatorAddress dec) s

/-- The pure per-account ingestion, once the account is decoded. -/
def ingestDecoded (creatorAddress : String) (s : Store) (p : String × Metadata) : Store :=
  { metadata := upsertBy metaConflict s.metadata (p.1, p.2.mint),
    creators := upsertBy creatorConflict s.creators (creatorAddress, p.1) }

/-- Decode every fetched account; `none` as soon as one decode fails. -/
def decodeAll {β : Type} (dec : β → Option Metadata) :
    List (String × β) → Option (List (String × Metadata))
  | [] => some []
  | a :: accs =>
    match dec a.2 with
    | none => none
    | some md =>
      match decodeAll dec accs with
      | none => none
      | some l => some ((a.1, md) :: l)

/-! ## `mine_holders` (src/main.rs lines 132-170)

For every `mint_address` of the `metadata` relation the code calls the custom
`getTokenLargestAccounts` RPC; for every returned token account whose
`amount` string equals "1" it fetches and unpacks the account (both fallible
via `?`, hence fatal on failure) and replaces the holder row for the mint by
`DELETE` + `INSERT`. -/

/-- One entry of the custom `getTokenLargestAccounts` response. -/
structure RpcTokenAccounts where
  address : String
  amount : String
  decimals : Nat
deriving DecidableEq, Repr

/-- Process one response entry for `mint`: if its amount is "1", fetch and
unpack the token account (`own` returns its decoded owner, `none` modelling
the `?`-propagated fetch/unpack failure) and replace the holder row. -/
def processTokenAccount (own : String → Option String) (mint : String)
    (h : List (String × String)) (ta : RpcTokenAccounts) :
    Option (List (String × String)) :=
  if ta.amount = "1" then
    match own ta.address with
    | none => none
    | some w => some ((h.filter (fun r => !decide (r.1 = mint))) ++ [(mint, w)])
  else
    some h

/-- Process every response entry for one mint, in response order. -/
def processMint (own : String → Option String) (mint : String)
    (tas : List RpcTokenAccounts) (h : List (String × String)) :
    Option (List (String × String)) :=
  tas.foldlM (processTokenAccount own mint) h

/-- The whole `mine_holders` pass: iterate the mints of the `metadata`
relation, querying `resp` for each mint's largest token accounts. -/
def mineHolders (resp : String → List RpcTokenAccounts) (own : String → Option String)
    (mints : List String) (h : List (String × String)) :
    Option (List (String × String)) :=
  mints.foldlM (fun h m => processMint own m (resp m) h) h

/-- The `mine-holders` command as invoked: it receives a `creator_address`
option (`MineHolders { creator_address }`) which the body binds as `_opts`
and never reads. -/
def mineHoldersCmd (_creatorAddress : String) (resp : String → List RpcTokenAccounts)
    (own : String → Option String) (mints : List String)
    (h : List (String × String)) : Option (List (String × String)) :=
  mineHolders resp own mints h

/-- The holder rows of one mint. -/
def rowsFor (mint : String) (h : List (String × String)) : List (String × String) :=
  h.filter (fun r => decide (r.1 = mint))

/-- The qualifying entries of a response: those whose amount string is "1". -/
def qualifying (tas : List RpcTokenAccounts) : List RpcTokenAccounts :=
  tas.filter (fun ta => decide (ta.amount = "1"))

/-! ## The retry loop (src/main.rs lines 107-120 and 249-262)

```text
let mut tries = 0;
let account = loop {
    tries += 1;
    match rpc.get_account(..) {
        Ok(account) => break Some(account),
        Err(err) => { if tries > 5 { break None; } }
    }
};
```
`retryGo fetch tries` runs the loop body with counter value `tries`;
`retryFetch` starts it at 0 and also reports the number of attempts made. -/

def retryGo {β : Type} (fetch : Nat → Option β) (tries : Nat) : Option β × Nat :=
  let t := tries + 1
  match fetch t with
  | some b => (some b, t)
  | none => if t > 5 then (none, t) else retryGo fetch t
termination_by 6 - tries
decreasing_by
  rename_i hle
  simp only [gt_iff_lt, not_lt] at hle
  omega

def retryFetch {β : Type} (fetch : Nat → Option β) : Option β × Nat :=
  retryGo fetch 0

/-! ## `rescue_slatts` (src/main.rs lines 236-321)

Per metadata record: fetch with the retry loop (give-up is non-fatal, the
record is skipped); decode (`?`, fatal); `data.creators.unwrap()` (panic when
`None`); skip when the creator list length is not 4; otherwise build the
corrected `Data` and sign/simulate a transaction carrying it. -/

/-- Outcome of processing one record. -/
inductive RecStatus where
  | failed
  | decodeErr
  | panicked
  | skipped
  | simulated (d : Data)
deriving DecidableEq, Repr

/-- The per-record step of `rescue_slatts`, applied to the fetch result.
`op` is the public key of the update-authority keypair. -/
def rescueRecordStep {β : Type} (dec : β → Option Metadata) (op : String)
    (fetchRes : Option β) : RecStatus :=
  match fetchRes with
  | none => .failed
  | some b =>
    match dec b with
    | none => .decodeErr
    | some md =>
      match md.data.creators with
      | none => .panicked
      | some cs =>
        if cs.length ≠ 4 then .skipped
        else
          match cs with
          | [] => .panicked
          | c0 :: _ =>
            .simulated { name := md.data.name
                         symbol := md.data.symbol
                         uri := md.data.uri
                         seller_fee_basis_points := md.data.seller_fee_basis_points
                         creators := some [c0, { address := op, verified := true, share := 100 }] }

/-- A run-aborting condition inside the per-record loop. -/
inductive RunError where
  | decodeError (addr : String)
  | panic (addr : String)
deriving DecidableEq, Repr

/-- The whole `rescue_slatts` pass over the metadata addresses of the store.
`fetch addr n` is the result of the n-th fetch attempt for `addr`.  A decode
error propagates out of the loop via `?`; the `unwrap` panic aborts the
process; fetch give-up and the cardinality guard skip to the next record. -/
def rescueRun {β : Type} (fetch : String → Nat → Option β) (dec : β → Option Metadata)
    (op : String) : List String → Except RunError (List (String × RecStatus))
  | [] => .ok []
  | addr :: rest =>
    match rescueRecordStep dec op (retryFetch (fetch addr)).1 with
    | .decodeErr => .error (.decodeError addr)
    | .panicked => .error (.panic addr)
    | st =>
      match rescueRun fetch dec op rest with
      | .error e => .error e
      | .ok outs => .ok ((addr, st) :: outs)

/-- Sum of the `share` fields of a creator list. -/
def sharesSum (cs : List Creator) : Nat :=
  (cs.map (fun c => c.share)).sum

/-- Sum of shares of an optional creator list (0 when absent). -/
def sharesSumOpt : Option (List Creator) → Nat
  | none => 0
  | some cs => sharesSum cs

/-! ## The creator-discovery memcmp offset (src/main.rs lines 200-216) -/

/-- The `key` discriminator byte. -/
def keySize : Nat := 1

/-- A 32-byte public key (`update_authority`, `mint`). -/
def pubkeySize : Nat := 32

/-- The 4-byte Borsh length prefix of a string. -/
def stringLenPrefixSize : Nat := 4

/-- Maximum padded capacities of the three string fields of `Data`:
name (32), uri (200), symbol (10), in the order the source sums them. -/
def schemaStringMaxLens : List Nat := [32, 200, 10]

/-- `seller_fee_basis_points`, a u16. -/
def sellerFeeSize : Nat := 2

/-- The 1-byte `Option` presence flag of the creators vec. -/
def creatorsPresenceFlagSize : Nat := 1

/-- The 4-byte Borsh length prefix of the creators vec. -/
def vecLenPrefixSize : Nat := 4

/-- The memcmp offset exactly as the source writes it:
`1 + 32 + 32 + 4 + 32 + 4 + 200 + 4 + 10 + 2 + 1 + 4`. -/
def metadataCreatorsOffset : Nat :=
  1 + 32 + 32 + 4 + 32 + 4 + 200 + 4 + 10 + 2 + 1 + 4

/-! ## Concrete values used by witnesses and counterexamples -/

/-- A well-formed decoded metadata account used in witnesses. -/
def mdW : Metadata :=
  { update_authority := "UA"
    mint := "M"
    data := { name := "n", symbol := "s", uri := "u",
              seller_fee_basis_points := 500, creators := some [] } }

/-- A four-creator `Data` whose shares sum to 100 with a nonzero first share. -/
def dataC2 : Data :=
  { name := "slatt", symbol := "SL", uri := "https://x/y.json",
    seller_fee_basis_points := 500,
    creators := some [ { address := "c1", verified := true, share := 50 },
                       { address := "c2", verified := false, share := 20 },
                       { address := "c3", verified := false, share := 20 },
                       { address := "c4", verified := false, share := 10 } ] }

/-- The metadata account wrapping `dataC2`. -/
def mdC2 : Metadata :=
  { update_authority := "UA", mint := "M", data := dataC2 }

/-- The corrected payload `rescue_slatts` builds for `mdC2` with operator
identity "OP". -/
def dataC2Corrected : Data :=
  { name := "slatt", symbol := "SL", uri := "https://x/y.json",
    seller_fee_basis_points := 500,
    creators := some [ { address := "c1", verified := true, share := 50 },
                       { address := "OP", verified := true, share := 100 } ] }

/-- A two-entry `getTokenLargestAccounts` response used in witnesses: one
non-qualifying account (amount "2") and one qualifying account (amount "1"). -/
def respW : String → List RpcTokenAccounts := fun _ =>
  [ { address := "t1", amount := "2", decimals := 0 },
    { address := "t2", amount := "1", decimals := 0 } ]

/-- The owner lookup used in witnesses: account "t2" is owned by "W". -/
def ownW : String → Option String := fun a => if a = "t2" then some "W" else none

/-- A metadata account whose creators option is absent. -/
def mdNoCreators : Metadata :=
  { update_authority := "UA", mint := "M",
    data := { name := "n", symbol := "s", uri := "u",
              seller_fee_basis_points := 0, creators := none } }

/-- A metadata account with a two-creator list (already remediated shape). -/
def mdTwoCreators : Metadata :=
  { update_authority := "UA", mint := "M",
    data := { name := "n", symbol := "s", uri := "u",
              seller_fee_basis_points := 0,
              creators := some [ { address := "c1", verified := true, share := 0 },
                                 { address := "op", verified := true, share := 100 } ] } }

/-! ## Theory of repeated `INSERT OR REPLACE` folds -/

section UpsertTheory

variable {α : Type} (conflict : α → α → Bool)

theorem survivors_cons (r : α) (L : List α) :
    survivors conflict (r :: L)
      = (if L.any (fun y => conflict r y) then [] else [r]) ++ survivors conflict L := rfl

theorem survivors_subset {L : List α} {x : α} (hx : x ∈ survivors conflict L) : x ∈ L := by
  induction L with
  | nil => simp [survivors] at hx
  | cons r L ih =>
    rw [survivors_cons] at hx
    rcases List.mem_append.mp hx with hx | hx
    · by_cases h : L.any (fun y => conflict r y) = true
      · simp [h] at hx
      · simp only [Bool.not_eq_true] at h
        rw [h] at hx
        simp only [Bool.false_eq_true, if_false, List.mem_singleton] at hx
        simp [hx]
    · exact List.mem_cons_of_mem _ (ih hx)

theorem noConf_cons (r : α) (L : List α) (x : α) :
    noConf conflict (r :: L) x = (!conflict x r && noConf conflict L x) := by
  simp [noConf]

theorem noConf_self_eq_not_any (r : α) (L : List α) :
    noConf conflict L r = !(L.any (fun y => conflict r y)) := by
  induction L with
  | nil => simp [noConf]
  | cons y L ih => simp [noConf, List.any_cons] at ih ⊢; cases h : conflict r y <;> simp [h, ih]

/-- Characterisation of a fold of upserts: the rows of the initial state that
conflict with no inserted row, followed by the surviving inserted rows. -/
theorem upserts_eq (L : List α) (s : List α) :
    upserts conflict s L = s.filter (noConf conflict L) ++ survivors conflict L := by
  induction L generalizing s with
  | nil =>
    show s = s.filter (noConf conflict []) ++ []
    have hall : s.filter (noConf conflict []) = s :=
      List.filter_eq_self.mpr (fun x _ => by simp [noConf])
    rw [hall, List.append_nil]
  | cons r L ih =>
    have step : upserts conflict s (r :: L) = upserts conflict (upsertBy conflict s r) L := rfl
    rw [step, ih]
    simp only [upsertBy, List.filter_append]
    rw [List.filter_filter]
    have hfilter :
        s.filter (fun x => noConf conflict L x && !conflict x r) =
        s.filter (noConf conflict (r :: L)) := by
      apply List.filter_congr
      intro x _
      rw [noConf_cons]
      exact Bool.and_comm _ _
    rw [hfilter]
    have hr : [r].filter (noConf conflict L) ++ survivors conflict L
        = survivors conflict (r :: L) := by
      rw [survivors_cons, List.filter_singleton, noConf_self_eq_not_any]
      cases h : L.any (fun y => conflict r y) <;> simp [h]
    rw [List.append_assoc, hr]

theorem noConf_of_mem (hrefl : ∀ x, conflict x x = true)
    {L : List α} {x : α} (hx : x ∈ L) : noConf conflict L x = false := by
  rw [noConf_self_eq_not_any]
  have hany : L.any (fun y => conflict x y) = true := List.any_eq_true.mpr ⟨x, hx, hrefl x⟩
  rw [hany]
  rfl

/-- Folding the same sequence of upserts a second time does not change the
table: conflicting old rows were already removed by the first fold, and every
surviving inserted row is simply re-inserted in the same relative order. -/
theorem upserts_idem (hrefl : ∀ x, conflict x x = true) (L : List α) (s : List α) :
    upserts conflict (upserts conflict s L) L = upserts conflict s L := by
  rw [upserts_eq, upserts_eq, List.filter_append, List.filter_filter]
  have h1 : (fun x => noConf conflict L x && noConf conflict L x) = noConf conflict L := by
    funext x
    exact Bool.and_self _
  rw [h1]
  have h2 : (survivors conflict L).filter (noConf conflict L) = [] := by
    apply List.filter_eq_nil_iff.mpr
    intro x hx
    rw [noConf_of_mem conflict hrefl (survivors_subset conflict hx)]
    exact Bool.false_ne_true
  rw [h2, List.append_nil]

end UpsertTheory

theorem metaConflict_refl (x : String × String) : metaConflict x x = true := by
  simp [metaConflict]

theorem creatorConflict_refl (x : String × String) : creatorConflict x x = true := by
  simp [creatorConflict]

/-! ## `mine_metadata`: decomposition and idempotence (C1) -/

theorem mineMetadata_eq_decodeAll {β : Type} (c : String) (dec : β → Option Metadata)
    (accs : List (String × β)) (s : Store) :
    mineMetadata c dec accs s
      = (decodeAll dec accs).map (fun l => l.foldl (ingestDecoded c) s) := by
  induction accs generalizing s with
  | nil => rfl
  | cons a accs ih =>
    show ingestAccount c dec s a >>= (accs.foldlM (ingestAccount c dec))
        = _
    cases hd : dec a.2 with
    | none =>
      simp [ingestAccount, hd, decodeAll]
    | some md =>
      have hstep : ingestAccount c dec s a = some (ingestDecoded c s (a.1, md)) := by
        simp [ingestAccount, hd, ingestDecoded]
      rw [show (ingestAccount c dec s a >>= (accs.foldlM (ingestAccount c dec)))
            = accs.foldlM (ingestAccount c dec) (ingestDecoded c s (a.1, md)) by
          rw [hstep]; rfl]
      rw [show accs.foldlM (ingestAccount c dec) (ingestDecoded c s (a.1, md))
            = mineMetadata c dec accs (ingestDecoded c s (a.1, md)) from rfl]
      rw [ih]
      simp only [decodeAll, hd]
      cases hall : decodeAll dec accs with
      | none => rfl
      | some l => rfl

theorem foldl_ingestDecoded (c : String) (l : List (String × Metadata)) (s : Store) :
    l.foldl (ingestDecoded c) s
      = { metadata := upserts metaConflict s.metadata (l.map (fun p => (p.1, p.2.mint)))
          creators := upserts creatorConflict s.creators (l.map (fun p => (c, p.1))) } := by
  induction l generalizing s with
  | nil => rfl
  | cons p l ih =>
    show l.foldl (ingestDecoded c) (ingestDecoded c s p) = _
    rw [ih]
    rfl

/-- C1: running the `mine_metadata` pass a second time against the same
fetched account sequence leaves the Store exactly as the first run left it:
the two `INSERT OR REPLACE` folds are idempotent, so there is no duplicate
row and no row-count drift in the `metadata` or `creators` relations. -/
theorem mine_metadata_idempotent {β : Type} (c : String) (dec : β → Option Metadata)
    (accs : List (String × β)) (s s₁ : Store)
    (h : mineMetadata c dec accs s = some s₁) :
    mineMetadata c dec accs s₁ = some s₁ := by
  rw [mineMetadata_eq_decodeAll] at h ⊢
  cases hd : decodeAll dec accs with
  | none => rw [hd] at h; simp at h
  | some l =>
    rw [hd] at h
    have h' : l.foldl (ingestDecoded c) s = s₁ := by
      simpa using h
    subst h'
    show some (l.foldl (ingestDecoded c) (l.foldl (ingestDecoded c) s))
        = some (l.foldl (ingestDecoded c) s)
    rw [foldl_ingestDecoded, foldl_ingestDecoded]
    have hm := upserts_idem metaConflict metaConflict_refl
      (l.map (fun p => (p.1, p.2.mint))) s.metadata
    have hc := upserts_idem creatorConflict creatorConflict_refl
      (l.map (fun p => (c, p.1))) s.creators
    exact congrArg some (congrArg₂ Store.mk hm hc)

/-- Witness for C1 at a concrete one-account snapshot. -/
theorem mine_metadata_idempotent_witness :
    mineMetadata "C" (fun _ : Unit => some mdW) [("A", ())]
        { metadata := [], creators := [] }
      = some { metadata := [("A", "M")], creators := [("C", "A")] } ∧
    mineMetadata "C" (fun _ : Unit => some mdW) [("A", ())]
        { metadata := [("A", "M")], creators := [("C", "A")] }
      = some { metadata := [("A", "M")], creators := [("C", "A")] } :=
  ⟨rfl, mine_metadata_idempotent "C" _ [("A", ())]
      { metadata := [], creators := [] }
      { metadata := [("A", "M")], creators := [("C", "A")] } rfl⟩

/-! ## C10: `mine_holders` ignores its `creator_address` option -/

/-- C10: the `mine-holders` command binds its `creator_address` option as
`_opts` and never reads it, so its effect on the holders relation is the same
for any two argument values, given the same store and remote responses. -/
theorem mine_holders_ignores_creator_address (c₁ c₂ : String)
    (resp : String → List RpcTokenAccounts) (own : String → Option String)
    (mints : List String) (h : List (String × String)) :
    mineHoldersCmd c₁ resp own mints h = mineHoldersCmd c₂ resp own mints h := rfl

/-! ## C3: the retry loop -/

/-- C3 counterexample: against a remote that fails on every attempt, the loop
body runs 6 fetch attempts (the counter is incremented before the fetch and
the loop only gives up once `tries > 5`), not 5 as the spec states. -/
theorem retry_attempts_counterexample :
    (retryFetch (fun _ => (none : Option Unit))).2 = 6 ∧
    ¬ (retryFetch (fun _ => (none : Option Unit))).2 = 5 := by
  constructor
  · simp [retryFetch, retryGo]
  · simp [retryFetch, retryGo]

/-- C3 (amended): against a remote that fails on every attempt, the retry
loop of `rescue_slatts` (the same loop shape as in `list_metadata_uris`)
terminates after exactly 6 attempts with no account; the record is marked
`failed` and the engine continues with the next record. -/
theorem retry_always_failing_terminates {β : Type} (fetch : String → Nat → Option β)
    (dec : β → Option Metadata) (op : String) (addr : String) (rest : List String)
    (h : ∀ n, fetch addr n = none) :
    retryFetch (fetch addr) = (none, 6) ∧
    rescueRecordStep dec op (retryFetch (fetch addr)).1 = .failed ∧
    (∀ outs, rescueRun fetch dec op rest = .ok outs →
      rescueRun fetch dec op (addr :: rest) = .ok ((addr, .failed) :: outs)) := by
  have hr : retryFetch (fetch addr) = (none, 6) := by
    simp [retryFetch, retryGo, h]
  refine ⟨hr, ?_, ?_⟩
  · rw [hr]
    rfl
  · intro outs houts
    show (match rescueRecordStep dec op (retryFetch (fetch addr)).1 with
      | .decodeErr => Except.error (.decodeError addr)
      | .panicked => Except.error (.panic addr)
      | st =>
        match rescueRun fetch dec op rest with
        | .error e => Except.error e
        | .ok outs => Except.ok ((addr, st) :: outs)) = Except.ok ((addr, .failed) :: outs)
    rw [hr, houts]
    rfl

/-- Witness for C3 (amended) at the constantly failing fetch. -/
theorem retry_always_failing_terminates_witness :
    retryFetch (fun _ => (none : Option Unit)) = (none, 6) ∧
    rescueRecordStep (fun _ : Unit => some mdW) "OP"
        (retryFetch (fun _ => (none : Option Unit))).1 = .failed ∧
    rescueRun (fun _ _ => (none : Option Unit)) (fun _ => some mdW) "OP" ["A"]
      = .ok [("A", .failed)] := by
  have h := retry_always_failing_terminates
    (fun _ _ => (none : Option Unit)) (fun _ => some mdW) "OP" "A" []
    (fun _ => rfl)
  exact ⟨h.1, h.2.1, h.2.2 [] rfl⟩

/-! ## C4: the creator-discovery memcmp offset -/

/-- C4 (amended): the memcmp offset written in the source equals the byte sum
of the key discriminator, two 32-byte public keys, the three length-prefixed
string fields (name, uri, symbol) at their maximum padded capacities, the
2-byte fee, the 1-byte creators presence flag and the 4-byte vec length
prefix; the schema has three string fields, and the offset is 326. -/
theorem creators_offset_schema_sum :
    metadataCreatorsOffset
      = keySize + 2 * pubkeySize
        + (schemaStringMaxLens.map (fun cap => stringLenPrefixSize + cap)).sum
        + sellerFeeSize + creatorsPresenceFlagSize + vecLenPrefixSize
    ∧ schemaStringMaxLens.length = 3
    ∧ metadataCreatorsOffset = 326 := by
  refine ⟨?_, rfl, rfl⟩
  rfl

/-- C4 counterexample: no fourth length-prefixed string field of any maximum
capacity can be added to the schema's three string fields while keeping the
cumulative byte size equal to the offset the source uses — the spec's count
of "four length-prefixed strings" does not describe this schema. -/
theorem creators_offset_four_strings_counterexample :
    ¬ ∃ cap4 : Nat,
      metadataCreatorsOffset
        = keySize + 2 * pubkeySize
          + ((schemaStringMaxLens ++ [cap4]).map (fun cap => stringLenPrefixSize + cap)).sum
          + sellerFeeSize + creatorsPresenceFlagSize + vecLenPrefixSize := by
  rintro ⟨cap4, h⟩
  simp [metadataCreatorsOffset, keySize, pubkeySize, schemaStringMaxLens,
    stringLenPrefixSize, sellerFeeSize, creatorsPresenceFlagSize, vecLenPrefixSize] at h
  omega

/-! ## The per-record remediation step: validation, building, panic -/

/-- Helper: the step outcome on a record that passes validation (creators
present, cardinality 4): the corrected payload keeps the first creator, adds
the single operator entry, and carries the other fields over. -/
theorem rescueStep_simulated_of_valid {β : Type} (dec : β → Option Metadata) (op : String)
    (b : β) (md : Metadata) (c0 : Creator) (cs : List Creator)
    (hdec : dec b = some md) (hcs : md.data.creators = some (c0 :: cs))
    (hlen : (c0 :: cs).length = 4) :
    rescueRecordStep dec op (some b)
      = .simulated { name := md.data.name
                     symbol := md.data.symbol
                     uri := md.data.uri
                     seller_fee_basis_points := md.data.seller_fee_basis_points
                     creators := some [c0, { address := op, verified := true, share := 100 }] } := by
  simp [rescueRecordStep, hdec, hcs, hlen]

/-- C6: for every record passing validation, the corrected payload retains
the first creator unchanged, replaces the remaining slots with exactly one
entry for the operator's identity with share 100 and verified set, and
carries name, symbol, uri and fee over unchanged. -/
theorem corrected_payload_structure {β : Type} (dec : β → Option Metadata) (op : String)
    (b : β) (md : Metadata) (c0 : Creator) (cs : List Creator)
    (hdec : dec b = some md) (hcs : md.data.creators = some (c0 :: cs))
    (hlen : (c0 :: cs).length = 4) :
    rescueRecordStep dec op (some b)
      = .simulated { name := md.data.name
                     symbol := md.data.symbol
                     uri := md.data.uri
                     seller_fee_basis_points := md.data.seller_fee_basis_points
                     creators := some [c0, { address := op, verified := true, share := 100 }] } :=
  rescueStep_simulated_of_valid dec op b md c0 cs hdec hcs hlen

/-- Witness for C6 on the concrete four-creator record `mdC2`. -/
theorem corrected_payload_structure_witness :
    rescueRecordStep (fun _ : Unit => some mdC2) "OP" (some ())
      = .simulated dataC2Corrected :=
  corrected_payload_structure (fun _ => some mdC2) "OP" () mdC2
    { address := "c1", verified := true, share := 50 }
    [ { address := "c2", verified := false, share := 20 },
      { address := "c3", verified := false, share := 20 },
      { address := "c4", verified := false, share := 10 } ] rfl rfl rfl

/-- C2 counterexample: `mdC2` passes validation (four creators) and its
original shares sum to 100, yet the corrected payload the engine builds has
shares 50 and 100, summing to 150 — the shares-sum-to-100 invariant fails on
the payload the program itself produces. -/
theorem corrected_shares_sum_counterexample :
    rescueRecordStep (fun _ : Unit => some mdC2) "OP" (some ())
        = .simulated dataC2Corrected ∧
    dataC2Corrected.creators ≠ none ∧
    sharesSumOpt mdC2.data.creators = 100 ∧
    sharesSumOpt dataC2Corrected.creators = 150 ∧
    ¬ sharesSumOpt dataC2Corrected.creators = 100 := by
  refine ⟨?_, by simp [dataC2Corrected], rfl, rfl, by simp [dataC2Corrected, sharesSumOpt, sharesSum]⟩
  simp [rescueRecordStep, mdC2, dataC2, dataC2Corrected]

/-- C2 (amended): for every record that passes validation, the corrected
payload's creator shares sum to the first creator's share plus 100; the sum
equals 100 exactly when the retained first creator's share is 0. -/
theorem corrected_shares_sum {β : Type} (dec : β → Option Metadata) (op : String)
    (b : β) (md : Metadata) (c0 : Creator) (cs : List Creator)
    (hdec : dec b = some md) (hcs : md.data.creators = some (c0 :: cs))
    (hlen : (c0 :: cs).length = 4) :
    ∃ d, rescueRecordStep dec op (some b) = .simulated d ∧
      sharesSumOpt d.creators = c0.share + 100 ∧
      (sharesSumOpt d.creators = 100 ↔ c0.share = 0) := by
  refine ⟨_, rescueStep_simulated_of_valid dec op b md c0 cs hdec hcs hlen, ?_, ?_⟩
  · simp [sharesSumOpt, sharesSum]
  · simp [sharesSumOpt, sharesSum]

/-- Witness for C2 (amended) on `mdC2`, whose first creator has share 50. -/
theorem corrected_shares_sum_witness :
    ∃ d, rescueRecordStep (fun _ : Unit => some mdC2) "OP" (some ()) = .simulated d ∧
      sharesSumOpt d.creators = 50 + 100 ∧
      (sharesSumOpt d.creators = 100 ↔ (50 : Nat) = 0) :=
  corrected_shares_sum (fun _ => some mdC2) "OP" () mdC2
    { address := "c1", verified := true, share := 50 }
    [ { address := "c2", verified := false, share := 20 },
      { address := "c3", verified := false, share := 20 },
      { address := "c4", verified := false, share := 10 } ] rfl rfl rfl

/-- C5: a fetched record whose decoded creators list has a cardinality other
than 4 is marked skipped, yields no simulated transaction, and the engine
continues with the next record. -/
theorem wrong_cardinality_skipped {β : Type} (dec : β → Option Metadata) (op : String)
    (b : β) (md : Metadata) (cs : List Creator)
    (hdec : dec b = some md) (hcs : md.data.creators = some cs) (hlen : cs.length ≠ 4) :
    rescueRecordStep dec op (some b) = .skipped ∧
    (∀ d, rescueRecordStep dec op (some b) ≠ .simulated d) ∧
    (∀ fetch addr rest outs, (retryFetch (fetch addr)).1 = some b →
      rescueRun fetch dec op rest = .ok outs →
      rescueRun fetch dec op (addr :: rest) = .ok ((addr, .skipped) :: outs)) := by
  have hstep : rescueRecordStep dec op (some b) = .skipped := by
    simp [rescueRecordStep, hdec, hcs, hlen]
  refine ⟨hstep, ?_, ?_⟩
  · intro d hd
    rw [hstep] at hd
    exact RecStatus.noConfusion hd
  · intro fetch addr rest outs hfetch houts
    show (match rescueRecordStep dec op (retryFetch (fetch addr)).1 with
      | .decodeErr => Except.error (.decodeError addr)
      | .panicked => Except.error (.panic addr)
      | st =>
        match rescueRun fetch dec op rest with
        | .error e => Except.error e
        | .ok outs => Except.ok ((addr, st) :: outs)) = Except.ok ((addr, .skipped) :: outs)
    rw [hfetch, hstep, houts]

/-- Witness for C5 on a concrete two-creator (already remediated) record. -/
theorem wrong_cardinality_skipped_witness :
    rescueRecordStep (fun _ : Unit => some mdTwoCreators) "OP" (some ()) = .skipped ∧
    (∀ d, rescueRecordStep (fun _ : Unit => some mdTwoCreators) "OP" (some ()) ≠ .simulated d) ∧
    rescueRun (fun _ _ => some ()) (fun _ : Unit => some mdTwoCreators) "OP" ["A"]
      = .ok [("A", .skipped)] := by
  have h := wrong_cardinality_skipped (fun _ : Unit => some mdTwoCreators) "OP" () mdTwoCreators
    [ { address := "c1", verified := true, share := 0 },
      { address := "op", verified := true, share := 100 } ] rfl rfl (by decide)
  refine ⟨h.1, h.2.1, ?_⟩
  refine h.2.2 (fun _ _ => some ()) "A" [] [] ?_ rfl
  simp [retryFetch, retryGo]

/-- C9: a fetched record whose decoded creators field is absent hits the
unconditional `unwrap`: the step panics — it is neither skipped nor reported
as a recoverable error, and the panic aborts the run. -/
theorem creators_none_panics {β : Type} (dec : β → Option Metadata) (op : String)
    (b : β) (md : Metadata)
    (hdec : dec b = some md) (hnone : md.data.creators = none) :
    rescueRecordStep dec op (some b) = .panicked ∧
    rescueRecordStep dec op (some b) ≠ .skipped ∧
    (∀ fetch addr rest, (retryFetch (fetch addr)).1 = some b →
      rescueRun fetch dec op (addr :: rest) = .error (.panic addr)) := by
  have hstep : rescueRecordStep dec op (some b) = .panicked := by
    simp [rescueRecordStep, hdec, hnone]
  refine ⟨hstep, ?_, ?_⟩
  · rw [hstep]
    exact fun h => RecStatus.noConfusion h
  · intro fetch addr rest hfetch
    show (match rescueRecordStep dec op (retryFetch (fetch addr)).1 with
      | .decodeErr => Except.error (.decodeError addr)
      | .panicked => Except.error (.panic addr)
      | st =>
        match rescueRun fetch dec op rest with
        | .error e => Except.error e
        | .ok outs => Except.ok ((addr, st) :: outs)) = Except.error (.panic addr)
    rw [hfetch, hstep]

/-- Witness for C9 on a record with an absent creators option. -/
theorem creators_none_panics_witness :
    rescueRecordStep (fun _ : Unit => some mdNoCreators) "OP" (some ()) = .panicked ∧
    rescueRecordStep (fun _ : Unit => some mdNoCreators) "OP" (some ()) ≠ .skipped ∧
    rescueRun (fun _ _ => some ()) (fun _ : Unit => some mdNoCreators) "OP" ["A"]
      = .error (.panic "A") := by
  have h := creators_none_panics (fun _ : Unit => some mdNoCreators) "OP" () mdNoCreators rfl rfl
  refine ⟨h.1, h.2.1, ?_⟩
  refine h.2.2 (fun _ _ => some ()) "A" [] ?_
  simp [retryFetch, retryGo]

/-! ## C7: fatality of decode errors -/

theorem decodeAll_some_no_failure {β : Type} (dec : β → Option Metadata)
    {accs : List (String × β)} {l : List (String × Metadata)}
    (h : decodeAll dec accs = some l) : ∀ a ∈ accs, dec a.2 ≠ none := by
  induction accs generalizing l with
  | nil => intro a ha; simp at ha
  | cons a accs ih =>
    intro x hx
    simp only [decodeAll] at h
    cases hd : dec a.2 with
    | none => rw [hd] at h; simp at h
    | some md =>
      rw [hd] at h
      cases hall : decodeAll dec accs with
      | none => rw [hall] at h; simp at h
      | some l' =>
        rcases List.mem_cons.mp hx with hx | hx
        · subst hx; rw [hd]; exact Option.noConfusion
        · exact ih hall x hx

theorem mineMetadata_some_no_decode_failure {β : Type} (c : String)
    (dec : β → Option Metadata) {accs : List (String × β)} {s s₁ : Store}
    (h : mineMetadata c dec accs s = some s₁) : ∀ a ∈ accs, dec a.2 ≠ none := by
  rw [mineMetadata_eq_decodeAll] at h
  cases hd : decodeAll dec accs with
  | none => rw [hd] at h; simp at h
  | some l => exact decodeAll_some_no_failure dec hd

theorem processMint_some_no_unpack_failure (own : String → Option String) (m : String)
    {tas : List RpcTokenAccounts} {h h₁ : List (String × String)}
    (hp : processMint own m tas h = some h₁) :
    ∀ ta ∈ tas, ta.amount = "1" → own ta.address ≠ none := by
  induction tas generalizing h with
  | nil => intro ta hta; simp at hta
  | cons ta tas ih =>
    intro x hx hamt
    have hstep : processMint own m (ta :: tas) h
        = (processTokenAccount own m h ta).bind (processMint own m tas) := rfl
    rw [hstep] at hp
    rcases Option.bind_eq_some.mp hp with ⟨h₂, hh₂, hrest⟩
    rcases List.mem_cons.mp hx with hx | hx
    · subst hx
      simp only [processTokenAccount, hamt, if_true] at hh₂
      cases ho : own x.address with
      | none => rw [ho] at hh₂; simp at hh₂
      | some w => exact Option.noConfusion
    · exact ih hrest x hx hamt

theorem mineHolders_some_no_unpack_failure (resp : String → List RpcTokenAccounts)
    (own : String → Option String) {mints : List String} {h h₁ : List (String × String)}
    (hrun : mineHolders resp own mints h = some h₁) :
    ∀ m ∈ mints, ∀ ta ∈ resp m, ta.amount = "1" → own ta.address ≠ none := by
  induction mints generalizing h with
  | nil => intro m hm; simp at hm
  | cons m mints ih =>
    intro x hx
    have hstep : mineHolders resp own (m :: mints) h
        = (processMint own m (resp m) h).bind (mineHolders resp own mints) := rfl
    rw [hstep] at hrun
    rcases Option.bind_eq_some.mp hrun with ⟨h₂, hh₂, hrest⟩
    rcases List.mem_cons.mp hx with hx | hx
    · subst hx
      exact processMint_some_no_unpack_failure own x hh₂
    · exact ih hrest x hx

theorem rescueRun_ok_no_decode_failure {β : Type} (fetch : String → Nat → Option β)
    (dec : β → Option Metadata) (op : String) {addrs : List String}
    {outs : List (String × RecStatus)}
    (hrun : rescueRun fetch dec op addrs = .ok outs) :
    ∀ addr ∈ addrs, ∀ b, (retryFetch (fetch addr)).1 = some b → dec b ≠ none := by
  induction addrs generalizing outs with
  | nil => intro addr ha; simp at ha
  | cons addr rest ih =>
    intro x hx b hb hdec
    rcases List.mem_cons.mp hx with hx | hx
    · subst hx
      have hstep : rescueRecordStep dec op (retryFetch (fetch x)).1 = .decodeErr := by
        rw [hb]
        simp [rescueRecordStep, hdec]
      simp only [rescueRun, hstep] at hrun
      exact Except.noConfusion hrun
    · cases hs : rescueRecordStep dec op (retryFetch (fetch addr)).1 with
      | decodeErr => simp only [rescueRun, hs] at hrun; exact Except.noConfusion hrun
      | panicked => simp only [rescueRun, hs] at hrun; exact Except.noConfusion hrun
      | failed =>
        simp only [rescueRun, hs] at hrun
        cases hrest : rescueRun fetch dec op rest with
        | error e => rw [hrest] at hrun; exact Except.noConfusion hrun
        | ok outs' => exact ih hrest x hx b hb hdec
      | skipped =>
        simp only [rescueRun, hs] at hrun
        cases hrest : rescueRun fetch dec op rest with
        | error e => rw [hrest] at hrun; exact Except.noConfusion hrun
        | ok outs' => exact ih hrest x hx b hb hdec
      | simulated d =>
        simp only [rescueRun, hs] at hrun
        cases hrest : rescueRun fetch dec op rest with
        | error e => rw [hrest] at hrun; exact Except.noConfusion hrun
        | ok outs' => exact ih hrest x hx b hb hdec

/-- C7 counterexample: in the holder-resolution loop an unpack failure on one
qualifying token account aborts the whole run (`none`) instead of skipping
the record and continuing — the second mint is never reached; likewise one
decode failure in the remediation loop aborts the run with an error. -/
theorem decode_error_nonfatal_counterexample :
    mineHolders (fun _ => [ { address := "t1", amount := "1", decimals := 0 } ])
        (fun _ => none) ["m1", "m2"] [] = none ∧
    rescueRun (fun _ _ => some ()) (fun _ : Unit => none) "OP" ["A", "B"]
      = .error (.decodeError "A") := by
  constructor
  · rfl
  · have hf : (retryFetch (fun _ => some ())).1 = some () := by
      simp [retryFetch, retryGo]
    show (match rescueRecordStep (fun _ : Unit => none) "OP"
        (retryFetch (fun _ => some ())).1 with
      | .decodeErr => Except.error (.decodeError "A")
      | .panicked => Except.error (.panic "A")
      | st =>
        match rescueRun (fun _ _ => some ()) (fun _ : Unit => none) "OP" ["B"] with
        | .error e => Except.error e
        | .ok outs => Except.ok (("A", st) :: outs)) = Except.error (.decodeError "A")
    rw [hf]
    rfl

/-- C7 (amended): a decode error is fatal everywhere: a `mine_metadata` bulk
pass, a `mine_holders` run and a `rescue_slatts` run can only return
successfully when every decode they attempted succeeded — a decode failure
propagates out of the per-record loops and aborts the run instead of
skipping the record. -/
theorem decode_error_fatal {β : Type} :
    (∀ (c : String) (dec : β → Option Metadata) (accs : List (String × β)) (s s₁ : Store),
      mineMetadata c dec accs s = some s₁ → ∀ a ∈ accs, dec a.2 ≠ none) ∧
    (∀ (resp : String → List RpcTokenAccounts) (own : String → Option String)
        (mints : List String) (h h₁ : List (String × String)),
      mineHolders resp own mints h = some h₁ →
      ∀ m ∈ mints, ∀ ta ∈ resp m, ta.amount = "1" → own ta.address ≠ none) ∧
    (∀ (fetch : String → Nat → Option β) (dec : β → Option Metadata) (op : String)
        (addrs : List String) (outs : List (String × RecStatus)),
      rescueRun fetch dec op addrs = .ok outs →
      ∀ addr ∈ addrs, ∀ b, (retryFetch (fetch addr)).1 = some b → dec b ≠ none) :=
  ⟨fun c dec _ _ _ h => mineMetadata_some_no_decode_failure c dec h,
   fun resp own _ _ _ hrun => mineHolders_some_no_unpack_failure resp own hrun,
   fun fetch dec op _ _ hrun => rescueRun_ok_no_decode_failure fetch dec op hrun⟩

/-- Witness for C7 (amended): a successful one-account metadata pass, a
successful one-mint holders run, and a successful one-record rescue run,
each with their decodes succeeding. -/
theorem decode_error_fatal_witness :
    (mineMetadata "C" (fun _ : Unit => some mdW) [("A", ())]
        { metadata := [], creators := [] }
      = some { metadata := [("A", "M")], creators := [("C", "A")] } ∧
      (fun _ : Unit => some mdW) () ≠ none) ∧
    (mineHolders (fun _ => [ { address := "t1", amount := "1", decimals := 0 } ])
        (fun _ => some "W") ["m1"] [] = some [("m1", "W")] ∧
      (fun _ : String => some "W") "t1" ≠ none) := by
  refine ⟨⟨rfl, ?_⟩, rfl, ?_⟩
  · have h := (decode_error_fatal (β := Unit)).1 "C" (fun _ => some mdW) [("A", ())]
      { metadata := [], creators := [] }
      { metadata := [("A", "M")], creators := [("C", "A")] } rfl
    exact h ("A", ()) (by simp)
  · have h := (decode_error_fatal (β := Unit)).2.1
      (fun _ => [ { address := "t1", amount := "1", decimals := 0 } ])
      (fun _ => some "W") ["m1"] [] [("m1", "W")] rfl
    exact h "m1" (by simp) { address := "t1", amount := "1", decimals := 0 } (by simp) rfl

/-! ## C8: holder resolution -/

theorem rowsFor_processTokenAccount_other (own : String → Option String)
    {m m' : String} (hne : m ≠ m') {h h₁ : List (String × String)}
    {ta : RpcTokenAccounts} (hp : processTokenAccount own m' h ta = some h₁) :
    rowsFor m h₁ = rowsFor m h := by
  by_cases hq : ta.amount = "1"
  · simp only [processTokenAccount, hq, if_true] at hp
    cases ho : own ta.address with
    | none => rw [ho] at hp; simp at hp
    | some w =>
      rw [ho] at hp
      simp only [Option.some.injEq] at hp
      subst hp
      simp only [rowsFor, List.filter_append, List.filter_filter]
      have h1 : (fun (r : String × String) => decide (r.1 = m) && !decide (r.1 = m'))
          = fun r => decide (r.1 = m) := by
        funext r
        by_cases hr : r.1 = m
        · simp [hr, hne]
        · simp [hr]
      rw [h1]
      have h2 : [(m', w)].filter (fun r => decide (r.1 = m)) = [] := by
        simp [Ne.symm hne]
      rw [h2, List.append_nil]
  · simp only [processTokenAccount, hq, if_false] at hp
    simp only [Option.some.injEq] at hp
    subst hp
    rfl

theorem rowsFor_processMint_other (own : String → Option String)
    {m m' : String} (hne : m ≠ m') {tas : List RpcTokenAccounts}
    {h h₁ : List (String × String)} (hp : processMint own m' tas h = some h₁) :
    rowsFor m h₁ = rowsFor m h := by
  induction tas generalizing h with
  | nil =>
    have : h = h₁ := by simpa [processMint] using hp
    rw [this]
  | cons ta tas ih =>
    have hstep : processMint own m' (ta :: tas) h
        = (processTokenAccount own m' h ta).bind (processMint own m' tas) := rfl
    rw [hstep] at hp
    rcases Option.bind_eq_some.mp hp with ⟨h₂, hh₂, hrest⟩
    rw [ih hrest, rowsFor_processTokenAccount_other own hne hh₂]

theorem rowsFor_mineHolders_not_mem (resp : String → List RpcTokenAccounts)
    (own : String → Option String) {m : String} {mints : List String}
    {h h₁ : List (String × String)} (hm : m ∉ mints)
    (hrun : mineHolders resp own mints h = some h₁) :
    rowsFor m h₁ = rowsFor m h := by
  induction mints generalizing h with
  | nil =>
    have : h = h₁ := by simpa [mineHolders] using hrun
    rw [this]
  | cons m' mints ih =>
    have hstep : mineHolders resp own (m' :: mints) h
        = (processMint own m' (resp m') h).bind (mineHolders resp own mints) := rfl
    rw [hstep] at hrun
    rcases Option.bind_eq_some.mp hrun with ⟨h₂, hh₂, hrest⟩
    have hne : m ≠ m' := fun he => hm (he ▸ List.mem_cons_self m' mints)
    have hnm : m ∉ mints := fun hmem => hm (List.mem_cons_of_mem m' hmem)
    rw [ih hnm hrest, rowsFor_processMint_other own hne hh₂]

theorem rowsFor_filter_self (m : String) (h : List (String × String)) :
    rowsFor m (h.filter (fun r => !decide (r.1 = m))) = [] := by
  simp only [rowsFor, List.filter_filter]
  apply List.filter_eq_nil_iff.mpr
  intro r _
  by_cases hr : r.1 = m <;> simp [hr]

/-- The per-mint characterisation of `processMint`: no qualifying account
leaves the table untouched; otherwise the holder row for the mint is exactly
the owner of the last qualifying account of the response. -/
theorem processMint_last_wins (own : String → Option String) (m : String)
    {tas : List RpcTokenAccounts} {h h₁ : List (String × String)}
    (hp : processMint own m tas h = some h₁) :
    (qualifying tas = [] → h₁ = h) ∧
    (∀ a, (qualifying tas).getLast? = some a →
      ∃ w, own a.address = some w ∧ rowsFor m h₁ = [(m, w)]) := by
  induction tas generalizing h with
  | nil =>
    have : h = h₁ := by simpa [processMint] using hp
    subst this
    exact ⟨fun _ => rfl, fun a ha => by simp [qualifying] at ha⟩
  | cons ta tas ih =>
    have hstep : processMint own m (ta :: tas) h
        = (processTokenAccount own m h ta).bind (processMint own m tas) := rfl
    rw [hstep] at hp
    rcases Option.bind_eq_some.mp hp with ⟨h₂, hh₂, hrest⟩
    by_cases hq : ta.amount = "1"
    · have hqual : qualifying (ta :: tas) = ta :: qualifying tas := by
        simp [qualifying, hq]
      simp only [processTokenAccount, hq, if_true] at hh₂
      cases ho : own ta.address with
      | none => rw [ho] at hh₂; simp at hh₂
      | some w₀ =>
        rw [ho] at hh₂
        simp only [Option.some.injEq] at hh₂
        subst hh₂
        constructor
        · intro hnil
          rw [hqual] at hnil
          exact absurd hnil (List.cons_ne_nil ta (qualifying tas))
        · intro a ha
          rw [hqual] at ha
          cases hq' : qualifying tas with
          | nil =>
            rw [hq'] at ha
            simp only [List.getLast?_singleton, Option.some.injEq] at ha
            subst ha
            refine ⟨w₀, ho, ?_⟩
            have hfix := (ih hrest).1 hq'
            rw [hfix]
            simp only [rowsFor, List.filter_append]
            rw [show (h.filter (fun r => !decide (r.1 = m))).filter
                  (fun r => decide (r.1 = m)) = [] from rowsFor_filter_self m h]
            simp
          | cons b q =>
            rw [hq'] at ha
            rw [List.getLast?_cons_cons] at ha
            rcases (ih hrest).2 a (by rw [hq']; exact ha) with ⟨w, hw, hrows⟩
            exact ⟨w, hw, hrows⟩
    · have hqual : qualifying (ta :: tas) = qualifying tas := by
        simp [qualifying, hq]
      simp only [processTokenAccount, hq, if_false] at hh₂
      simp only [Option.some.injEq] at hh₂
      subst hh₂
      rw [hqual]
      exact ih hrest

/-- C8: for a mint known to the Store, a successful `mine_holders` run leaves
the holder rows of that mint unchanged when the remote reports no qualifying
token account (amount "1"); and when it reports one or more, the store ends
with exactly one holder row for the mint, holding the decoded owner of the
last qualifying account in the response ordering — in particular exactly one
row with that account's owner in the exactly-one-qualifying case. -/
theorem holder_resolution (resp : String → List RpcTokenAccounts)
    (own : String → Option String) (mints : List String)
    (h h₁ : List (String × String)) (m : String)
    (hnd : mints.Nodup) (hm : m ∈ mints)
    (hrun : mineHolders resp own mints h = some h₁) :
    (qualifying (resp m) = [] → rowsFor m h₁ = rowsFor m h) ∧
    (∀ a, (qualifying (resp m)).getLast? = some a →
      ∃ w, own a.address = some w ∧ rowsFor m h₁ = [(m, w)]) := by
  induction mints generalizing h with
  | nil => simp at hm
  | cons m' mints ih =>
    have hstep : mineHolders resp own (m' :: mints) h
        = (processMint own m' (resp m') h).bind (mineHolders resp own mints) := rfl
    rw [hstep] at hrun
    rcases Option.bind_eq_some.mp hrun with ⟨h₂, hh₂, hrest⟩
    rcases List.mem_cons.mp hm with he | hmem
    · subst he
      have hnot : m ∉ mints := (List.nodup_cons.mp hnd).1
      have hpres : rowsFor m h₁ = rowsFor m h₂ :=
        rowsFor_mineHolders_not_mem resp own hnot hrest
      have hchar := processMint_last_wins own m hh₂
      constructor
      · intro hnil
        rw [hpres, hchar.1 hnil]
      · intro a ha
        rcases hchar.2 a ha with ⟨w, hw, hrows⟩
        exact ⟨w, hw, by rw [hpres, hrows]⟩
    · have hne : m ≠ m' := by
        intro he
        subst he
        exact (List.nodup_cons.mp hnd).1 hmem
      have hpres : rowsFor m h₂ = rowsFor m h :=
        rowsFor_processMint_other own hne hh₂
      have hrec := ih h₂ (List.nodup_cons.mp hnd).2 hmem hrest
      exact ⟨fun hnil => by rw [hrec.1 hnil, hpres], hrec.2⟩

/-- Witness for C8 on a one-mint store with one qualifying account out of
two reported, resolving to owner "W". -/
theorem holder_resolution_witness :
    ((qualifying (respW "m") = [] → rowsFor "m" [("m", "W")] = rowsFor "m" []) ∧
      (∀ a, (qualifying (respW "m")).getLast? = some a →
        ∃ w, ownW a.address = some w ∧ rowsFor "m" [("m", "W")] = [("m", w)])) ∧
    mineHolders respW ownW ["m"] [] = some [("m", "W")] :=
  ⟨holder_resolution respW ownW ["m"] [] [("m", "W")] "m"
      (List.nodup_singleton "m") (List.mem_singleton_self "m") rfl,
   rfl⟩

end Collier
